import Mathlib

/-!
Verification development for the `file_syncer` synchronization engine
(`file_syncer/syncer.py`).

The Python code manipulates dictionaries mapping a file's remote name
(its path relative to the sync root) to an item dictionary with keys
`name`, `remote_name`, `path`, `last_modified` and `md5_hash`.  We embed
such a dictionary as an association list `List (String × Item)`; Python's
`d[k] = v` (update in place, else append) and `del d[k]` are embedded as
`dictSet` and `dictDel`.  Modification times (`os.path.getmtime`) are
only ever compared with `<`, so they are embedded as natural numbers.
External collaborators (libcloud driver calls, `json.loads`, `fnmatch`)
are embedded as explicit outcome parameters, so that every control-flow
branch of the syncer's own code is represented.
-/

/-- One file item, as built in `FileSyncer._get_local_files`:
`{'name': name, 'remote_name': remote_name, 'path': file_path,
'last_modified': mtime, 'md5_hash': md5_hash}` (where `md5_hash` is
always `None` in the source). -/
structure Item where
  name : String
  remote_name : String
  path : String
  last_modified : Nat
  md5_hash : Option String
deriving DecidableEq

/-- A snapshot: a Python dict keyed by remote name, embedded as an
association list in insertion order. -/
abbrev Snapshot := List (String × Item)

/-- Lookup, i.e. Python `d.get(k, None)`. -/
def dictGet (d : Snapshot) (k : String) : Option Item :=
  match d with
  | [] => none
  | p :: t => if p.1 = k then some p.2 else dictGet t k

/-- Python `d[k] = v`: replace the entry in place when the key is
present, append otherwise. -/
def dictSet (d : Snapshot) (k : String) (v : Item) : Snapshot :=
  match d with
  | [] => [(k, v)]
  | p :: t => if p.1 = k then (k, v) :: t else p :: dictSet t k v

/-- Python `del d[k]`: drop the (unique, in a real dict) entry. -/
def dictDel (d : Snapshot) (k : String) : Snapshot :=
  match d with
  | [] => []
  | p :: t => if p.1 = k then t else p :: dictDel t k

/-- The key set of a snapshot (what Python iterates over with `in`). -/
def snapKeys (s : Snapshot) : List String := s.map Prod.fst

/-- Well-formedness every dict built by the syncer enjoys: keys are
unique (it is a dict) and each entry is keyed by its item's
`remote_name` (both `_get_local_files` and `_generate_manifest` insert
with `d[item['remote_name']] = item`). -/
def WFSnap (s : Snapshot) : Prop :=
  (snapKeys s).Nodup ∧ ∀ p ∈ s, p.1 = p.2.remote_name

instance (s : Snapshot) : Decidable (WFSnap s) := by
  unfold WFSnap; infer_instance

/-- Result of `FileSyncer._get_differences`. -/
structure DiffResult where
  added : Snapshot
  modified : Snapshot
  removed : Snapshot
deriving DecidableEq

/-- Body of the first loop of `FileSyncer._get_differences`: over
`local_files`; a key missing remotely is `added`, a key whose local
`last_modified` is strictly greater than the remote one is `modified`,
anything else is left untouched. -/
def diffStep1 (remote_files : Snapshot) (acc : DiffResult) (p : String × Item) : DiffResult :=
  match dictGet remote_files p.1 with
  | none => { acc with added := dictSet acc.added p.1 p.2 }
  | some remote_item =>
    if remote_item.last_modified < p.2.last_modified then
      { acc with modified := dictSet acc.modified p.1 p.2 }
    else acc

/-- Body of the second loop of `FileSyncer._get_differences`: over
`remote_files`; the loop variable `name` is immediately reassigned to
`remote_item['remote_name']`, and that name is looked up in
`local_files` (`if not local_item`) to classify `removed`. -/
def diffStep2 (local_files : Snapshot) (acc : DiffResult) (p : String × Item) : DiffResult :=
  match dictGet local_files p.2.remote_name with
  | none => { acc with removed := dictSet acc.removed p.2.remote_name p.2 }
  | some _ => acc

/-- `FileSyncer._get_differences(local_files, remote_files)`: run the
first loop over `local_files`, then the second loop over
`remote_files`. -/
def getDifferences (local_files remote_files : Snapshot) : DiffResult :=
  remote_files.foldl (diffStep2 local_files)
    (local_files.foldl (diffStep1 remote_files)
      { added := [], modified := [], removed := [] })

/-- Result of `FileSyncer._calculate_actions`. -/
structure Actions where
  to_upload : List Item
  to_remove : List Item
deriving DecidableEq

/-- `FileSyncer._calculate_actions(differences)`: chain the values of
`added` and `modified` into `to_upload`, the values of `removed` into
`to_remove`. -/
def calculateActions (differences : DiffResult) : Actions :=
  { to_upload := differences.added.map Prod.snd ++ differences.modified.map Prod.snd
    to_remove := differences.removed.map Prod.snd }

/-- Body of the upload loop of `FileSyncer._generate_manifest`:
`manifest[item['remote_name']] = item`. -/
def manifestAdd (m : Snapshot) (item : Item) : Snapshot :=
  dictSet m item.remote_name item

/-- Body of the removal loop of `FileSyncer._generate_manifest`:
`if item['remote_name'] in manifest: del manifest[item['remote_name']]`. -/
def manifestDrop (m : Snapshot) (item : Item) : Snapshot :=
  if (dictGet m item.remote_name).isSome then dictDel m item.remote_name else m

/-- `FileSyncer._generate_manifest(remote_files)`: deep-copy the fetched
remote manifest, write every item of `self._uploaded` under its
`remote_name`, then delete the `remote_name` of every item of
`self._removed` that is present. -/
def generateManifest (remote_files : Snapshot) (uploaded removed : List Item) : Snapshot :=
  removed.foldl manifestDrop (uploaded.foldl manifestAdd remote_files)

/-- Outcome of the libcloud `driver.delete_object` call inside
`FileSyncer._remove_object`.  A `delete` of an object that no longer
exists raises `ObjectDoesNotExistError`, which is an `Exception` like
any other provider failure; the two are listed separately so theorems
can speak about the missing-object case. -/
inductive DeleteOutcome
  | success
  | objectDoesNotExist
  | otherError (msg : String)
deriving DecidableEq

/-- `FileSyncer._remove_object(item)`: the provider call is wrapped in
`try ... except Exception: return`, so on any raised exception —
including `ObjectDoesNotExistError` — the function returns without
appending to `self._removed`; only a successful delete appends. -/
def removeObject (outcome : DeleteOutcome) (item : Item) (removed : List Item) : List Item :=
  match outcome with
  | .success => removed ++ [item]
  | .objectDoesNotExist => removed
  | .otherError _ => removed

/-- `FileSyncer._upload_object(item)`: `driver.upload_object` is wrapped
in `try ... except Exception: return`; only a successful upload appends
the item to `self._uploaded`. -/
def uploadObject (outcome : Except String Unit) (item : Item) (uploaded : List Item) : List Item :=
  match outcome with
  | .ok _ => uploaded ++ [item]
  | .error _ => uploaded

/-- The `self._removed` list accumulated by running every planned
removal (the pool interleaves items, but each item only appends on its
own success, so any completion order yields the same set; we take plan
order). -/
def runRemovals (to_remove : List Item) (removeOutcome : Item → DeleteOutcome) : List Item :=
  to_remove.foldl (fun acc item => removeObject (removeOutcome item) item acc) []

/-- The `self._uploaded` list accumulated by running every planned
upload. -/
def runUploads (to_upload : List Item) (uploadOutcome : Item → Except String Unit) : List Item :=
  to_upload.foldl (fun acc item => uploadObject (uploadOutcome item) item acc) []

/-- The tail of `FileSyncer.sync`: after `pool.join()` drains every
scheduled upload and removal, the manifest is recomputed from the
previously fetched `remote_files` and the accumulated success lists, and
persisted.  This function is total in the per-item outcomes: no single
item's failure can abort it. -/
def runSyncManifest (remote_files : Snapshot) (actions : Actions)
    (removeOutcome : Item → DeleteOutcome)
    (uploadOutcome : Item → Except String Unit) : Snapshot :=
  generateManifest remote_files
    (runUploads actions.to_upload uploadOutcome)
    (runRemovals actions.to_remove removeOutcome)

/-- The Scan → Diff → Plan stage of `FileSyncer.sync`. -/
def syncPlan (local_files remote_files : Snapshot) : Actions :=
  calculateActions (getDifferences local_files remote_files)

/-- The manifest persisted by a `sync` run in which every planned upload
and removal succeeds. -/
def syncManifestAllSuccess (local_files remote_files : Snapshot) : Snapshot :=
  runSyncManifest remote_files (syncPlan local_files remote_files)
    (fun _ => DeleteOutcome.success) (fun _ => Except.ok ())

/-- Outcome of `driver.get_object(container_name, MANIFEST_FILE)` in
`FileSyncer._get_remote_files`: either the manifest object is absent
(`ObjectDoesNotExistError`) or present with some downloaded content. -/
inductive ManifestFetch
  | objectDoesNotExist
  | found (data : String)
deriving DecidableEq

/-- `FileSyncer._get_remote_files()`.  `json.loads` is an external
library call, embedded as the parameter `parseJson` (`none` embeds a
raised parse exception).  An absent manifest object yields the empty
dict; a present object whose content fails to parse raises
`Exception('Corrupted manifest, failed to parse it: ...')`. -/
def getRemoteFiles (parseJson : String → Option Snapshot) :
    ManifestFetch → Except String Snapshot
  | .objectDoesNotExist => .ok []
  | .found data =>
    match parseJson data with
    | some parsed => .ok parsed
    | none => .error "Corrupted manifest, failed to parse it"

/-- `FileSyncer._include_file(file_name)`: returns falsy (`None`) as
soon as one exclude pattern `fnmatch`es the file name, `True` otherwise.
`fnmatch.fnmatch` is the Python standard library, embedded as the
parameter `fnmatchFn file_name pattern`. -/
def include_file (fnmatchFn : String → String → Bool)
    (exclude_patterns : List String) (file_name : String) : Bool :=
  !exclude_patterns.any (fun pattern => fnmatchFn file_name pattern)

/-- `pat` matches at the head of the character list. -/
def leadMatch : List Char → List Char → Bool
  | [], _ => true
  | _ :: _, [] => false
  | p :: ps, c :: cs => p = c && leadMatch ps cs

/-- Recursion worker for `removeOcc`.  The scan consumes at least one
character per step, so `fuel = s.length` suffices; fuel (rather than
well-founded recursion on `s.length`) keeps the definition reducible by
the kernel. -/
def removeOccFuel (pat : List Char) : Nat → List Char → List Char
  | 0, s => s
  | _ + 1, [] => []
  | fuel + 1, c :: rest =>
    if pat ≠ [] ∧ leadMatch pat (c :: rest) then
      removeOccFuel pat fuel (rest.drop (pat.length - 1))
    else
      c :: removeOccFuel pat fuel rest

/-- Python `str.replace(old, '')` with a nonempty `old`: delete every
non-overlapping occurrence of `pat`, scanning left to right.  (For an
empty `pat`, `s.replace('', '')` returns `s` unchanged, matched by the
else branch always firing.) -/
def removeOcc (pat : List Char) (s : List Char) : List Char :=
  removeOccFuel pat s.length s

/-- `pat` occurs somewhere (at some position) in the list. -/
def occursIn (pat : List Char) : List Char → Bool
  | [] => false
  | c :: rest => leadMatch pat (c :: rest) || occursIn pat rest

/-- `FileSyncer._get_item_remote_name(name, file_path)`:
`file_path.replace(self._directory, '')` — Python `str.replace` deletes
every occurrence of the directory string, not only a leading one. -/
def getItemRemoteName (directory : String) (file_path : String) : String :=
  String.mk (removeOcc directory.data file_path.data)

/-- `FileSyncer._get_local_files(directory)`.  The `os.walk` traversal
and `os.path.join`/`os.path.getmtime` calls are external; the walk is
embedded as the list of `(name, file_path, mtime)` triples the loop body
receives.  Each visited file is keyed by its remote name and skipped
entirely when `_include_file` rejects that remote name. -/
def scanStep (fnmatchFn : String → String → Bool)
    (exclude_patterns : List String) (directory : String)
    (result : Snapshot) (e : String × String × Nat) : Snapshot :=
  let remote_name := getItemRemoteName directory e.2.1
  if include_file fnmatchFn exclude_patterns remote_name then
    dictSet result remote_name
      { name := e.1, remote_name := remote_name, path := e.2.1,
        last_modified := e.2.2, md5_hash := none }
  else result

def getLocalFiles (fnmatchFn : String → String → Bool)
    (exclude_patterns : List String) (directory : String)
    (walk : List (String × String × Nat)) : Snapshot :=
  walk.foldl (scanStep fnmatchFn exclude_patterns directory) []

/-- Last character is a slash (`os.path.join` drops its separator after
a component already ending in `/`). -/
def lastIsSlash (a : String) : Bool :=
  match a.data.getLast? with
  | some c => c = '/'
  | none => false

/-- First character is a slash. -/
def headIsSlash (b : String) : Bool :=
  match b.data with
  | c :: _ => c = '/'
  | [] => false

/-- `posixpath.join(a, b)` for two components: an absolute `b` discards
`a` entirely. -/
def pathJoin (a b : String) : String :=
  if headIsSlash b then b
  else if a = "" || lastIsSlash a then a ++ b
  else a ++ "/" ++ b

/-- The destination path computed at the top of
`FileSyncer._download_remote_file(name)`: `local_filename = name`, strip
one leading `'/'` when `name[0] == '/'`, then
`os.path.join(self._directory, local_filename)`.  On the empty name the
subscript `name[0]` raises `IndexError`, embedded as `none`. -/
def downloadLocalPath (directory : String) (name : String) : Option String :=
  match name.data with
  | [] => none
  | c :: _ =>
    let local_filename := if c = '/' then String.mk (name.data.drop 1) else name
    some (pathJoin directory local_filename)

/-- Modelled from the spec: the fixed well-known manifest object key
(`MANIFEST_FILE` lives in `file_syncer/constants.py`, which is not part
of the sources at hand; its concrete value is irrelevant to every claim
below). -/
def MANIFEST_FILE : String := "manifest.json"

/-- A libcloud driver call made by the syncer, as recorded in an effect
trace.  The last three mutate remote state; the first three only read. -/
inductive DriverOp
  | getObject (object_name : String)
  | downloadAsStream (object_name : String)
  | downloadObject (object_name : String) (destination_path : String)
  | uploadObject (object_name : String)
  | uploadViaStream (object_name : String)
  | deleteObject (object_name : String)
deriving DecidableEq

/-- Whether a driver call writes or deletes remote state. -/
def isRemoteMutation : DriverOp → Bool
  | .uploadObject _ => true
  | .uploadViaStream _ => true
  | .deleteObject _ => true
  | _ => false

/-- Driver calls made by `FileSyncer._download_remote_file(name)`:
compute the local path (faulting on an empty name before any driver
call), `get_object` — returning early on `ObjectDoesNotExistError` —
then `download_object` to the computed path. -/
def downloadRemoteFileOps (directory : String) (name : String)
    (objExists : Bool) : List DriverOp :=
  match downloadLocalPath directory name with
  | none => []
  | some filepath =>
    DriverOp.getObject name ::
      (if objExists then [DriverOp.downloadObject name filepath] else [])

/-- Driver calls made by `FileSyncer._get_remote_files()`: `get_object`
on the manifest key, then `download_object_as_stream` when it exists. -/
def getRemoteFilesOps : ManifestFetch → List DriverOp
  | .objectDoesNotExist => [DriverOp.getObject MANIFEST_FILE]
  | .found _ => [DriverOp.getObject MANIFEST_FILE,
                 DriverOp.downloadAsStream MANIFEST_FILE]

/-- The download tasks `FileSyncer.restore()` spawns: one per iteration
of `for item in self._get_remote_files()` — iterating a Python dict
yields its keys.  A corrupted manifest raises out of `restore`, so no
task is spawned. -/
def restoreTasks (parseJson : String → Option Snapshot)
    (fetch : ManifestFetch) : List String :=
  match getRemoteFiles parseJson fetch with
  | .ok snap => snapKeys snap
  | .error _ => []

/-- The full driver-call trace of `FileSyncer.restore()`: the manifest
fetch, then the calls of each spawned download task. -/
def restoreOps (parseJson : String → Option Snapshot) (fetch : ManifestFetch)
    (directory : String) (objExists : String → Bool) : List DriverOp :=
  getRemoteFilesOps fetch ++
    (restoreTasks parseJson fetch).foldl
      (fun acc name => acc ++ downloadRemoteFileOps directory name (objExists name)) []



/-! ### Specification-side helper definitions -/

/-- Specification predicate for `added`: the local key is absent from
the remote snapshot. -/
def addedPred (remote_files : Snapshot) (p : String × Item) : Bool :=
  (dictGet remote_files p.1).isNone

/-- Specification predicate for `modified`: present remotely with a
strictly older `last_modified`. -/
def modifiedPred (remote_files : Snapshot) (p : String × Item) : Bool :=
  match dictGet remote_files p.1 with
  | some remote_item => decide (remote_item.last_modified < p.2.last_modified)
  | none => false

/-- Specification predicate for `removed`: the entry's `remote_name` is
absent from the local snapshot. -/
def removedPred (local_files : Snapshot) (p : String × Item) : Bool :=
  (dictGet local_files p.2.remote_name).isNone

/-- The last uploaded item carrying the given remote name, if any (a
later iteration of the upload loop overwrites an earlier one). -/
def findLastUpload (uploaded : List Item) (k : String) : Option Item :=
  uploaded.foldl (fun acc i => if i.remote_name = k then some i else acc) none

/-- Whether an upload outcome is a success. -/
def uploadOk : Except String Unit → Bool
  | .ok _ => true
  | .error _ => false

/-- Whether a delete outcome is a success (the only case `_remove_object`
counts). -/
def deleteOk : DeleteOutcome → Bool
  | .success => true
  | .objectDoesNotExist => false
  | .otherError _ => false


/-! ### Concrete fixtures used by witnesses and counterexamples -/

/-- A concrete local item keyed `/a.txt` with the given mtime. -/
def itemA (t : Nat) : Item :=
  { name := "a.txt", remote_name := "/a.txt", path := "/d/a.txt",
    last_modified := t, md5_hash := none }

/-- A concrete local item keyed `/b.txt` with the given mtime. -/
def itemB (t : Nat) : Item :=
  { name := "b.txt", remote_name := "/b.txt", path := "/d/b.txt",
    last_modified := t, md5_hash := none }

/-- A concrete local item keyed `/c.txt` with the given mtime. -/
def itemC (t : Nat) : Item :=
  { name := "c.txt", remote_name := "/c.txt", path := "/d/c.txt",
    last_modified := t, md5_hash := none }

/-- A concrete item for an exclusion scenario. -/
def itemSecret : Item :=
  { name := "secret.txt", remote_name := "/secret.txt", path := "/d/secret.txt",
    last_modified := 5, md5_hash := none }

/-- A concrete stand-in for `fnmatch.fnmatch` restricted to
wildcard-free patterns, on which glob matching is string equality. -/
def fnmatchLit (file_name pattern : String) : Bool := file_name == pattern

/-- A concrete stand-in for `json.loads` that always succeeds with a
one-entry manifest. -/
def parseW : String → Option Snapshot := fun _ => some [("/a.txt", itemA 100)]

/-- A concrete upload outcome function that fails exactly on `/b.txt`. -/
def failB : Item → Except String Unit :=
  fun i => if i.remote_name == "/b.txt" then Except.error "network error" else Except.ok ()

/-! ### Association-list (Python dict) lemmas -/

@[simp] theorem dictGet_nil (k : String) : dictGet [] k = none := rfl

@[simp] theorem dictGet_cons (a : String) (b : Item) (t : Snapshot) (k : String) :
    dictGet ((a, b) :: t) k = if a = k then some b else dictGet t k := rfl

@[simp] theorem dictSet_nil (k : String) (v : Item) : dictSet [] k v = [(k, v)] := rfl

theorem dictSet_cons (a : String) (b : Item) (t : Snapshot) (k : String) (v : Item) :
    dictSet ((a, b) :: t) k v = if a = k then (k, v) :: t else (a, b) :: dictSet t k v := rfl

@[simp] theorem dictDel_nil (k : String) : dictDel [] k = [] := rfl

theorem dictDel_cons (a : String) (b : Item) (t : Snapshot) (k : String) :
    dictDel ((a, b) :: t) k = if a = k then t else (a, b) :: dictDel t k := rfl

@[simp] theorem snapKeys_nil : snapKeys [] = [] := rfl

@[simp] theorem snapKeys_cons (p : String × Item) (t : Snapshot) :
    snapKeys (p :: t) = p.1 :: snapKeys t := rfl

@[simp] theorem snapKeys_append (l₁ l₂ : Snapshot) :
    snapKeys (l₁ ++ l₂) = snapKeys l₁ ++ snapKeys l₂ := by
  simp [snapKeys]

theorem mem_snapKeys {s : Snapshot} {k : String} :
    k ∈ snapKeys s ↔ ∃ v, (k, v) ∈ s := by
  induction s with
  | nil => simp
  | cons p t ih =>
    obtain ⟨a, b⟩ := p
    simp only [snapKeys_cons, List.mem_cons, ih]
    constructor
    · rintro (rfl | ⟨v, hv⟩)
      · exact ⟨b, Or.inl rfl⟩
      · exact ⟨v, Or.inr hv⟩
    · rintro ⟨v, hv | hv⟩
      · exact Or.inl (congrArg Prod.fst hv)
      · exact Or.inr ⟨v, hv⟩

theorem dictGet_eq_none {s : Snapshot} {k : String} :
    dictGet s k = none ↔ k ∉ snapKeys s := by
  induction s with
  | nil => simp
  | cons p t ih =>
    obtain ⟨a, b⟩ := p
    by_cases h : a = k
    · subst h
      simp
    · have hk : ¬ k = a := fun he => h he.symm
      simp [h, hk, ih]

theorem dictGet_mem {s : Snapshot} {k : String} {v : Item}
    (h : dictGet s k = some v) : (k, v) ∈ s := by
  induction s with
  | nil => simp at h
  | cons p t ih =>
    obtain ⟨a, b⟩ := p
    rw [dictGet_cons] at h
    by_cases ha : a = k
    · rw [if_pos ha] at h
      obtain rfl := ha
      obtain rfl : b = v := Option.some.inj h
      exact List.mem_cons_self _ _
    · rw [if_neg ha] at h
      exact List.mem_cons_of_mem _ (ih h)

theorem dictGet_of_mem {s : Snapshot} {k : String} {v : Item}
    (hnd : (snapKeys s).Nodup) (h : (k, v) ∈ s) : dictGet s k = some v := by
  induction s with
  | nil => simp at h
  | cons p t ih =>
    obtain ⟨a, b⟩ := p
    rw [snapKeys_cons, List.nodup_cons] at hnd
    rcases List.mem_cons.mp h with h1 | h1
    · have hk : k = a := congrArg Prod.fst h1
      have hv : v = b := congrArg Prod.snd h1
      subst hk
      subst hv
      rw [dictGet_cons, if_pos rfl]
    · have ha : ¬ a = k := by
        intro he
        subst he
        exact hnd.1 (mem_snapKeys.mpr ⟨v, h1⟩)
      rw [dictGet_cons, if_neg ha]
      exact ih hnd.2 h1

theorem dictGet_isSome_iff (s : Snapshot) (k : String) :
    (dictGet s k).isSome = true ↔ k ∈ snapKeys s := by
  cases ho : dictGet s k with
  | none => simp [dictGet_eq_none.mp ho]
  | some v => simp [mem_snapKeys.mpr ⟨v, dictGet_mem ho⟩]

theorem dictGet_dictSet (d : Snapshot) (k : String) (v : Item) (k' : String) :
    dictGet (dictSet d k v) k' = if k' = k then some v else dictGet d k' := by
  induction d with
  | nil =>
    by_cases h : k' = k
    · subst h
      simp
    · have hk : ¬ k = k' := fun he => h he.symm
      simp [h, hk]
  | cons p t ih =>
    obtain ⟨a, b⟩ := p
    by_cases ha : a = k
    · subst ha
      rw [dictSet_cons, if_pos rfl]
      by_cases h : k' = a
      · subst h
        simp
      · have hk : ¬ a = k' := fun he => h he.symm
        simp [h, hk]
    · rw [dictSet_cons, if_neg ha]
      by_cases h : a = k'
      · have hk : ¬ k' = k := by
          rw [← h]
          exact fun he => ha he
        rw [dictGet_cons, if_pos h, if_neg hk, dictGet_cons, if_pos h]
      · rw [dictGet_cons, if_neg h, ih, dictGet_cons, if_neg h]

theorem dictSet_eq_append (d : Snapshot) (k : String) (v : Item)
    (h : k ∉ snapKeys d) : dictSet d k v = d ++ [(k, v)] := by
  induction d with
  | nil => simp
  | cons p t ih =>
    obtain ⟨a, b⟩ := p
    rw [snapKeys_cons, List.mem_cons, not_or] at h
    have ha : ¬ a = k := fun he => h.1 he.symm
    rw [dictSet_cons, if_neg ha, ih h.2, List.cons_append]

theorem mem_snapKeys_dictSet (d : Snapshot) (k : String) (v : Item) (k' : String) :
    k' ∈ snapKeys (dictSet d k v) ↔ k' = k ∨ k' ∈ snapKeys d := by
  have h1 : dictGet (dictSet d k v) k' = none ↔ k' ∉ snapKeys (dictSet d k v) :=
    dictGet_eq_none
  have h2 : dictGet d k' = none ↔ k' ∉ snapKeys d := dictGet_eq_none
  by_cases h : k' = k
  · subst h
    rw [dictGet_dictSet, if_pos rfl] at h1
    have : k' ∈ snapKeys (dictSet d k' v) := by
      by_contra hc
      exact Option.noConfusion (h1.mpr hc)
    tauto
  · rw [dictGet_dictSet, if_neg h] at h1
    have h3 := not_iff_not.mp (h1.symm.trans h2)
    tauto

theorem snapKeys_dictSet_of_mem (d : Snapshot) (k : String) (v : Item)
    (h : k ∈ snapKeys d) : snapKeys (dictSet d k v) = snapKeys d := by
  induction d with
  | nil => simp at h
  | cons p t ih =>
    obtain ⟨a, b⟩ := p
    by_cases ha : a = k
    · subst ha
      rw [dictSet_cons, if_pos rfl]
      simp
    · have hk : k ∈ snapKeys t := by
        rcases List.mem_cons.mp h with h1 | h1
        · exact absurd h1.symm ha
        · exact h1
      rw [dictSet_cons, if_neg ha, snapKeys_cons, snapKeys_cons, ih hk]

theorem nodup_dictSet (d : Snapshot) (k : String) (v : Item)
    (h : (snapKeys d).Nodup) : (snapKeys (dictSet d k v)).Nodup := by
  by_cases hk : k ∈ snapKeys d
  · rw [snapKeys_dictSet_of_mem d k v hk]
    exact h
  · rw [dictSet_eq_append d k v hk, snapKeys_append]
    have hs : snapKeys [(k, v)] = [k] := rfl
    rw [hs]
    refine List.Nodup.append h (List.nodup_singleton k) ?_
    intro x hx hx'
    rw [List.mem_singleton] at hx'
    subst hx'
    exact hk hx

theorem mem_dictSet {d : Snapshot} {k : String} {v : Item} {q : String × Item}
    (h : q ∈ dictSet d k v) : q = (k, v) ∨ q ∈ d := by
  induction d with
  | nil =>
    simp at h
    exact Or.inl h
  | cons p t ih =>
    obtain ⟨a, b⟩ := p
    by_cases ha : a = k
    · rw [dictSet_cons, if_pos ha] at h
      rcases List.mem_cons.mp h with h1 | h1
      · exact Or.inl h1
      · exact Or.inr (List.mem_cons_of_mem _ h1)
    · rw [dictSet_cons, if_neg ha] at h
      rcases List.mem_cons.mp h with h1 | h1
      · exact Or.inr (h1 ▸ List.mem_cons_self _ _)
      · rcases ih h1 with h2 | h2
        · exact Or.inl h2
        · exact Or.inr (List.mem_cons_of_mem _ h2)

theorem dictDel_sublist (d : Snapshot) (k : String) : (dictDel d k).Sublist d := by
  induction d with
  | nil => simp
  | cons p t ih =>
    obtain ⟨a, b⟩ := p
    by_cases ha : a = k
    · rw [dictDel_cons, if_pos ha]
      exact List.Sublist.cons _ (List.Sublist.refl _)
    · rw [dictDel_cons, if_neg ha]
      exact List.Sublist.cons₂ _ ih

theorem dictGet_dictDel (d : Snapshot) (k k' : String)
    (hnd : (snapKeys d).Nodup) :
    dictGet (dictDel d k) k' = if k' = k then none else dictGet d k' := by
  induction d with
  | nil => simp
  | cons p t ih =>
    obtain ⟨a, b⟩ := p
    rw [snapKeys_cons, List.nodup_cons] at hnd
    by_cases ha : a = k
    · subst ha
      rw [dictDel_cons, if_pos rfl]
      by_cases h : k' = a
      · subst h
        rw [if_pos rfl]
        exact dictGet_eq_none.mpr hnd.1
      · rw [if_neg h, dictGet_cons, if_neg (fun he => h he.symm)]
    · rw [dictDel_cons, if_neg ha]
      by_cases h : k' = k
      · subst h
        rw [if_pos rfl, dictGet_cons, if_neg ha, ih hnd.2, if_pos rfl]
      · rw [if_neg h, dictGet_cons, dictGet_cons]
        by_cases hq : a = k'
        · rw [if_pos hq, if_pos hq]
        · rw [if_neg hq, if_neg hq, ih hnd.2, if_neg h]

/-! ### Characterizing `_get_differences` -/

theorem mem_snapKeys_of_filter {t : Snapshot} {p : String × Item → Bool} {k : String}
    (h : k ∈ snapKeys (t.filter p)) : k ∈ snapKeys t := by
  rcases mem_snapKeys.mp h with ⟨v, hv⟩
  exact mem_snapKeys.mpr ⟨v, List.mem_of_mem_filter hv⟩

theorem nodup_snapKeys_filter (t : Snapshot) (p : String × Item → Bool)
    (h : (snapKeys t).Nodup) : (snapKeys (t.filter p)).Nodup := by
  have hs : (t.filter p).Sublist t := List.filter_sublist t
  exact (hs.map Prod.fst).nodup h

theorem foldl_diffStep1 (R : Snapshot) :
    ∀ (l : List (String × Item)) (acc : DiffResult),
      (snapKeys l).Nodup →
      (∀ p ∈ l, p.1 ∉ snapKeys acc.added) →
      (∀ p ∈ l, p.1 ∉ snapKeys acc.modified) →
      l.foldl (diffStep1 R) acc =
        { added := acc.added ++ l.filter (addedPred R),
          modified := acc.modified ++ l.filter (modifiedPred R),
          removed := acc.removed } := by
  intro l
  induction l with
  | nil =>
    intro acc _ _ _
    simp
  | cons p t ih =>
    intro acc hnd hA hM
    rw [snapKeys_cons, List.nodup_cons] at hnd
    rcases hR : dictGet R p.1 with _ | ri
    · have hstep : diffStep1 R acc p = { acc with added := dictSet acc.added p.1 p.2 } := by
        simp [diffStep1, hR]
      have happ : dictSet acc.added p.1 p.2 = acc.added ++ [(p.1, p.2)] :=
        dictSet_eq_append _ _ _ (hA p (List.mem_cons_self _ _))
      rw [List.foldl_cons, hstep, happ]
      rw [ih _ hnd.2 ?hA' ?hM']
      case hA' =>
        intro q hq hmem
        rw [snapKeys_append] at hmem
        rcases List.mem_append.mp hmem with hmem | hmem
        · exact hA q (List.mem_cons_of_mem _ hq) hmem
        · have hq1 : q.1 = p.1 := by simpa using hmem
          exact hnd.1 (hq1 ▸ List.mem_map_of_mem Prod.fst hq)
      case hM' =>
        intro q hq
        exact hM q (List.mem_cons_of_mem _ hq)
      have hpA : addedPred R p = true := by simp [addedPred, hR]
      have hpM : modifiedPred R p = false := by simp [modifiedPred, hR]
      simp [List.filter_cons, hpA, hpM]
    · by_cases hlt : ri.last_modified < p.2.last_modified
      · have hstep : diffStep1 R acc p = { acc with modified := dictSet acc.modified p.1 p.2 } := by
          simp [diffStep1, hR, hlt]
        have happ : dictSet acc.modified p.1 p.2 = acc.modified ++ [(p.1, p.2)] :=
          dictSet_eq_append _ _ _ (hM p (List.mem_cons_self _ _))
        rw [List.foldl_cons, hstep, happ]
        rw [ih _ hnd.2 ?hA2 ?hM2]
        case hA2 =>
          intro q hq
          exact hA q (List.mem_cons_of_mem _ hq)
        case hM2 =>
          intro q hq hmem
          rw [snapKeys_append] at hmem
          rcases List.mem_append.mp hmem with hmem | hmem
          · exact hM q (List.mem_cons_of_mem _ hq) hmem
          · have hq1 : q.1 = p.1 := by simpa using hmem
            exact hnd.1 (hq1 ▸ List.mem_map_of_mem Prod.fst hq)
        have hpA : addedPred R p = false := by simp [addedPred, hR]
        have hpM : modifiedPred R p = true := by simp [modifiedPred, hR, hlt]
        simp [List.filter_cons, hpA, hpM]
      · have hstep : diffStep1 R acc p = acc := by
          simp [diffStep1, hR, hlt]
        rw [List.foldl_cons, hstep,
            ih _ hnd.2 (fun q hq => hA q (List.mem_cons_of_mem _ hq))
              (fun q hq => hM q (List.mem_cons_of_mem _ hq))]
        have hpA : addedPred R p = false := by simp [addedPred, hR]
        have hpM : modifiedPred R p = false := by simp [modifiedPred, hR, hlt]
        simp [List.filter_cons, hpA, hpM]

theorem foldl_diffStep2 (L : Snapshot) :
    ∀ (r : List (String × Item)) (acc : DiffResult),
      (r.map (fun p => p.2.remote_name)).Nodup →
      (∀ p ∈ r, p.2.remote_name ∉ snapKeys acc.removed) →
      r.foldl (diffStep2 L) acc =
        { added := acc.added, modified := acc.modified,
          removed := acc.removed ++
            (r.filter (removedPred L)).map (fun p => (p.2.remote_name, p.2)) } := by
  intro r
  induction r with
  | nil =>
    intro acc _ _
    simp
  | cons p t ih =>
    intro acc hnd hRm
    rw [List.map_cons, List.nodup_cons] at hnd
    rcases hL : dictGet L p.2.remote_name with _ | li
    · have hstep : diffStep2 L acc p = { acc with removed := dictSet acc.removed p.2.remote_name p.2 } := by
        simp [diffStep2, hL]
      have happ : dictSet acc.removed p.2.remote_name p.2 =
          acc.removed ++ [(p.2.remote_name, p.2)] :=
        dictSet_eq_append _ _ _ (hRm p (List.mem_cons_self _ _))
      rw [List.foldl_cons, hstep, happ]
      rw [ih _ hnd.2 ?hR']
      case hR' =>
        intro q hq hmem
        rw [snapKeys_append] at hmem
        rcases List.mem_append.mp hmem with hmem | hmem
        · exact hRm q (List.mem_cons_of_mem _ hq) hmem
        · have hq1 : q.2.remote_name = p.2.remote_name := by simpa using hmem
          exact hnd.1 (hq1 ▸ List.mem_map_of_mem (fun p => p.2.remote_name) hq)
      have hp : removedPred L p = true := by simp [removedPred, hL]
      simp [List.filter_cons, hp]
    · have hstep : diffStep2 L acc p = acc := by
        simp [diffStep2, hL]
      rw [List.foldl_cons, hstep,
          ih _ hnd.2 (fun q hq => hRm q (List.mem_cons_of_mem _ hq))]
      have hp : removedPred L p = false := by simp [removedPred, hL]
      simp [List.filter_cons, hp]

theorem map_remoteName_eq_snapKeys {R : Snapshot}
    (h : ∀ p ∈ R, p.1 = p.2.remote_name) :
    R.map (fun p => p.2.remote_name) = snapKeys R := by
  induction R with
  | nil => simp
  | cons p t ih =>
    rw [List.map_cons, snapKeys_cons, ih (fun q hq => h q (List.mem_cons_of_mem _ hq)),
        ← h p (List.mem_cons_self _ _)]

theorem getDifferences_eq (L R : Snapshot)
    (hL : (snapKeys L).Nodup)
    (hR : (R.map (fun p => p.2.remote_name)).Nodup) :
    getDifferences L R =
      { added := L.filter (addedPred R),
        modified := L.filter (modifiedPred R),
        removed := (R.filter (removedPred L)).map (fun p => (p.2.remote_name, p.2)) } := by
  rw [getDifferences,
      foldl_diffStep1 R L _ hL (by simp) (by simp),
      foldl_diffStep2 L R _ hR (by simp)]
  simp

/-! ### Characterizing `_generate_manifest` -/

theorem foldl_findLastUpload (k : String) :
    ∀ (u : List Item) (acc : Option Item),
      u.foldl (fun acc i => if i.remote_name = k then some i else acc) acc =
        match findLastUpload u k with
        | some j => some j
        | none => acc := by
  intro u
  induction u with
  | nil =>
    intro acc
    simp [findLastUpload]
  | cons i t ih =>
    intro acc
    have hcons : findLastUpload (i :: t) k =
        match findLastUpload t k with
        | some j => some j
        | none => if i.remote_name = k then some i else none := by
      rw [findLastUpload, List.foldl_cons]
      exact ih _
    rw [List.foldl_cons, ih, hcons]
    cases h : findLastUpload t k with
    | some j => simp
    | none =>
      by_cases hi : i.remote_name = k <;> simp [hi]

theorem findLastUpload_cons (i : Item) (t : List Item) (k : String) :
    findLastUpload (i :: t) k =
      match findLastUpload t k with
      | some j => some j
      | none => if i.remote_name = k then some i else none := by
  rw [findLastUpload, List.foldl_cons]
  exact foldl_findLastUpload k t _

theorem findLastUpload_eq_none {u : List Item} {k : String}
    (h : ∀ i ∈ u, i.remote_name ≠ k) : findLastUpload u k = none := by
  induction u with
  | nil => rfl
  | cons i t ih =>
    rw [findLastUpload_cons, ih (fun j hj => h j (List.mem_cons_of_mem _ hj))]
    simp [h i (List.mem_cons_self _ _)]

theorem findLastUpload_mem {u : List Item} {k : String} {i : Item}
    (h : findLastUpload u k = some i) : i ∈ u ∧ i.remote_name = k := by
  induction u with
  | nil => simp [findLastUpload] at h
  | cons j t ih =>
    rw [findLastUpload_cons] at h
    cases ht : findLastUpload t k with
    | some i' =>
      rw [ht] at h
      obtain rfl : i' = i := Option.some.inj h
      rcases ih ht with ⟨h1, h2⟩
      exact ⟨List.mem_cons_of_mem _ h1, h2⟩
    | none =>
      rw [ht] at h
      by_cases hj : j.remote_name = k
      · rw [if_pos hj] at h
        obtain rfl : j = i := Option.some.inj h
        exact ⟨List.mem_cons_self _ _, hj⟩
      · rw [if_neg hj] at h
        exact Option.noConfusion h

theorem findLastUpload_of_mem {u : List Item} {i : Item}
    (hnd : (u.map Item.remote_name).Nodup) (h : i ∈ u) :
    findLastUpload u i.remote_name = some i := by
  induction u with
  | nil => simp at h
  | cons j t ih =>
    rw [List.map_cons, List.nodup_cons] at hnd
    rw [findLastUpload_cons]
    rcases List.mem_cons.mp h with h1 | h1
    · subst h1
      have hnone : findLastUpload t i.remote_name = none :=
        findLastUpload_eq_none (fun j hj he =>
          hnd.1 (he ▸ List.mem_map_of_mem Item.remote_name hj))
      rw [hnone]
      simp
    · rw [ih hnd.2 h1]

theorem dictGet_foldl_manifestAdd :
    ∀ (u : List Item) (m : Snapshot) (k : String),
      dictGet (u.foldl manifestAdd m) k =
        match findLastUpload u k with
        | some i => some i
        | none => dictGet m k := by
  intro u
  induction u with
  | nil =>
    intro m k
    simp [findLastUpload]
  | cons i t ih =>
    intro m k
    rw [List.foldl_cons, ih, findLastUpload_cons]
    cases h : findLastUpload t k with
    | some j => simp
    | none =>
      have hadd : dictGet (manifestAdd m i) k =
          if k = i.remote_name then some i else dictGet m k := by
        rw [manifestAdd, dictGet_dictSet]
      rw [hadd]
      by_cases hi : i.remote_name = k
      · rw [if_pos (hi.symm), if_pos hi]
      · rw [if_neg (fun he => hi he.symm), if_neg hi]

theorem nodup_foldl_manifestAdd :
    ∀ (u : List Item) (m : Snapshot), (snapKeys m).Nodup →
      (snapKeys (u.foldl manifestAdd m)).Nodup := by
  intro u
  induction u with
  | nil =>
    intro m h
    exact h
  | cons i t ih =>
    intro m h
    rw [List.foldl_cons]
    exact ih _ (nodup_dictSet _ _ _ h)

theorem nodup_manifestDrop {m : Snapshot} (h : (snapKeys m).Nodup) (i : Item) :
    (snapKeys (manifestDrop m i)).Nodup := by
  rw [manifestDrop]
  by_cases hc : (dictGet m i.remote_name).isSome
  · rw [if_pos hc]
    exact ((dictDel_sublist m _).map Prod.fst).nodup h
  · rw [if_neg hc]
    exact h

theorem dictGet_manifestDrop (m : Snapshot) (i : Item) (k : String)
    (h : (snapKeys m).Nodup) :
    dictGet (manifestDrop m i) k = if i.remote_name = k then none else dictGet m k := by
  rw [manifestDrop]
  by_cases hc : (dictGet m i.remote_name).isSome
  · rw [if_pos hc, dictGet_dictDel m _ k h]
    by_cases hik : i.remote_name = k
    · rw [if_pos (hik.symm), if_pos hik]
    · rw [if_neg (fun he => hik he.symm), if_neg hik]
  · rw [if_neg hc]
    by_cases hik : i.remote_name = k
    · rw [if_pos hik, ← hik]
      rcases ho : dictGet m i.remote_name with _ | v
      · rfl
      · rw [ho] at hc
        exact absurd rfl hc
    · rw [if_neg hik]

theorem dictGet_foldl_manifestDrop :
    ∀ (rm : List Item) (m : Snapshot), (snapKeys m).Nodup → ∀ (k : String),
      dictGet (rm.foldl manifestDrop m) k =
        if rm.any (fun i => i.remote_name == k) then none else dictGet m k := by
  intro rm
  induction rm with
  | nil =>
    intro m _ k
    simp
  | cons i t ih =>
    intro m hm k
    rw [List.foldl_cons, ih _ (nodup_manifestDrop hm i) k, dictGet_manifestDrop m i k hm]
    by_cases ht : t.any (fun j => j.remote_name == k)
    · simp [ht]
    · by_cases hi : i.remote_name = k <;> simp [ht, hi]

theorem dictGet_generateManifest (r : Snapshot) (u rm : List Item) (k : String)
    (h : (snapKeys r).Nodup) :
    dictGet (generateManifest r u rm) k =
      if rm.any (fun i => i.remote_name == k) then none
      else
        match findLastUpload u k with
        | some i => some i
        | none => dictGet r k := by
  rw [generateManifest, dictGet_foldl_manifestDrop rm _ (nodup_foldl_manifestAdd u r h) k,
      dictGet_foldl_manifestAdd]

theorem wf_foldl_manifestAdd :
    ∀ (u : List Item) (m : Snapshot), WFSnap m → WFSnap (u.foldl manifestAdd m) := by
  intro u
  induction u with
  | nil =>
    intro m h
    exact h
  | cons i t ih =>
    intro m h
    rw [List.foldl_cons]
    refine ih _ ⟨nodup_dictSet _ _ _ h.1, ?_⟩
    intro q hq
    rcases mem_dictSet hq with h1 | h1
    · rw [h1]
    · exact h.2 q h1

theorem wf_foldl_manifestDrop :
    ∀ (rm : List Item) (m : Snapshot), WFSnap m → WFSnap (rm.foldl manifestDrop m) := by
  intro rm
  induction rm with
  | nil =>
    intro m h
    exact h
  | cons i t ih =>
    intro m h
    rw [List.foldl_cons]
    refine ih _ ⟨nodup_manifestDrop h.1 i, ?_⟩
    intro q hq
    refine h.2 q ?_
    rw [manifestDrop] at hq
    by_cases hc : (dictGet m i.remote_name).isSome
    · rw [if_pos hc] at hq
      exact (dictDel_sublist m _).mem hq
    · rw [if_neg hc] at hq
      exact hq

theorem wf_generateManifest (r : Snapshot) (u rm : List Item)
    (h : WFSnap r) : WFSnap (generateManifest r u rm) := by
  rw [generateManifest]
  exact wf_foldl_manifestDrop rm _ (wf_foldl_manifestAdd u r h)

/-! ### Characterizing the execution phase -/

theorem runUploads_eq_filter (u : List Item) (uo : Item → Except String Unit) :
    runUploads u uo = u.filter (fun i => uploadOk (uo i)) := by
  have hgen : ∀ (l : List Item) (acc : List Item),
      l.foldl (fun acc item => uploadObject (uo item) item acc) acc =
        acc ++ l.filter (fun i => uploadOk (uo i)) := by
    intro l
    induction l with
    | nil =>
      intro acc
      simp
    | cons i t ih =>
      intro acc
      rw [List.foldl_cons]
      cases ho : uo i with
      | ok v =>
        have h1 : uploadObject (Except.ok v) i acc = acc ++ [i] := rfl
        have h2 : uploadOk (uo i) = true := by rw [ho]; rfl
        rw [h1, ih, List.filter_cons, h2]
        simp
      | error e =>
        have h1 : uploadObject (Except.error e) i acc = acc := rfl
        have h2 : uploadOk (uo i) = false := by rw [ho]; rfl
        rw [h1, ih, List.filter_cons, h2]
        simp
  simpa using hgen u []

theorem runRemovals_eq_filter (r : List Item) (ro : Item → DeleteOutcome) :
    runRemovals r ro = r.filter (fun i => deleteOk (ro i)) := by
  have hgen : ∀ (l : List Item) (acc : List Item),
      l.foldl (fun acc item => removeObject (ro item) item acc) acc =
        acc ++ l.filter (fun i => deleteOk (ro i)) := by
    intro l
    induction l with
    | nil =>
      intro acc
      simp
    | cons i t ih =>
      intro acc
      rw [List.foldl_cons]
      cases ho : ro i with
      | success =>
        have h1 : removeObject DeleteOutcome.success i acc = acc ++ [i] := rfl
        have h2 : deleteOk (ro i) = true := by rw [ho]; rfl
        rw [h1, ih, List.filter_cons, h2]
        simp
      | objectDoesNotExist =>
        have h1 : removeObject DeleteOutcome.objectDoesNotExist i acc = acc := rfl
        have h2 : deleteOk (ro i) = false := by rw [ho]; rfl
        rw [h1, ih, List.filter_cons, h2]
        simp
      | otherError e =>
        have h1 : removeObject (DeleteOutcome.otherError e) i acc = acc := rfl
        have h2 : deleteOk (ro i) = false := by rw [ho]; rfl
        rw [h1, ih, List.filter_cons, h2]
        simp
  simpa using hgen r []

/-! ### String lemmas for `_get_item_remote_name` -/

theorem removeOccFuel_of_not_occurs (pat : List Char) :
    ∀ (fuel : Nat) (s : List Char), occursIn pat s = false →
      removeOccFuel pat fuel s = s := by
  intro fuel
  induction fuel with
  | zero =>
    intro s _
    rfl
  | succ n ih =>
    intro s hocc
    cases s with
    | nil => rfl
    | cons c rest =>
      rw [occursIn, Bool.or_eq_false_iff] at hocc
      rw [removeOccFuel, if_neg ?hne, ih rest hocc.2]
      case hne =>
        intro hcond
        rw [hocc.1] at hcond
        exact Bool.noConfusion hcond.2

theorem removeOcc_of_not_occurs (pat : List Char) (s : List Char)
    (h : occursIn pat s = false) : removeOcc pat s = s :=
  removeOccFuel_of_not_occurs pat s.length s h

theorem leadMatch_refl : ∀ (l : List Char) (rest : List Char),
    leadMatch l (l ++ rest) = true := by
  intro l
  induction l with
  | nil =>
    intro rest
    rfl
  | cons c t ih =>
    intro rest
    rw [List.cons_append, leadMatch]
    simp [ih rest]

theorem removeOccFuel_consume (pat : List Char) (rest : List Char)
    (hpat : pat ≠ []) (hocc : occursIn pat rest = false) :
    ∀ (fuel : Nat), 1 ≤ fuel →
      removeOccFuel pat fuel (pat ++ rest) = rest := by
  intro fuel hfuel
  cases pat with
  | nil => exact absurd rfl hpat
  | cons c ps =>
    cases fuel with
    | zero => omega
    | succ n =>
      rw [List.cons_append, removeOccFuel,
          if_pos ⟨hpat, leadMatch_refl (c :: ps) rest⟩]
      have hlen : (c :: ps).length - 1 = ps.length := by
        rw [List.length_cons]
        omega
      have hdrop : (ps ++ rest).drop ((c :: ps).length - 1) = rest := by
        rw [hlen, List.drop_left]
      rw [hdrop]
      exact removeOccFuel_of_not_occurs (c :: ps) n rest hocc

theorem removeOcc_strips_leading (pat : List Char) (rest : List Char)
    (hpat : pat ≠ []) (hocc : occursIn pat rest = false) :
    removeOcc pat (pat ++ rest) = rest := by
  rw [removeOcc]
  refine removeOccFuel_consume pat rest hpat hocc _ ?_
  rw [List.length_append]
  cases pat with
  | nil => exact absurd rfl hpat
  | cons c ps =>
    rw [List.length_cons]
    omega

/-! ### The scanner and exclusion -/

theorem wf_scanFold (fnmatchFn : String → String → Bool)
    (exclude_patterns : List String) (directory : String) :
    ∀ (walk : List (String × String × Nat)) (acc : Snapshot), WFSnap acc →
      WFSnap (walk.foldl (scanStep fnmatchFn exclude_patterns directory) acc) := by
  intro walk
  induction walk with
  | nil =>
    intro acc h
    exact h
  | cons e t ih =>
    intro acc h
    rw [List.foldl_cons]
    refine ih _ ?_
    rw [scanStep]
    by_cases hinc :
        include_file fnmatchFn exclude_patterns (getItemRemoteName directory e.2.1) = true
    · simp only [hinc, if_true]
      refine ⟨nodup_dictSet _ _ _ h.1, ?_⟩
      intro q hq
      rcases mem_dictSet hq with h1 | h1
      · rw [h1]
      · exact h.2 q h1
    · simp only [hinc, if_false]
      exact h

theorem wf_getLocalFiles (fnmatchFn : String → String → Bool)
    (exclude_patterns : List String) (directory : String)
    (walk : List (String × String × Nat)) :
    WFSnap (getLocalFiles fnmatchFn exclude_patterns directory walk) := by
  rw [getLocalFiles]
  exact wf_scanFold fnmatchFn exclude_patterns directory walk []
    ⟨List.nodup_nil, by simp⟩

theorem dictGet_scanFold_excluded (fnmatchFn : String → String → Bool)
    (exclude_patterns : List String) (directory : String) (k : String)
    (hk : include_file fnmatchFn exclude_patterns k = false) :
    ∀ (walk : List (String × String × Nat)) (acc : Snapshot),
      dictGet acc k = none →
      dictGet (walk.foldl (scanStep fnmatchFn exclude_patterns directory) acc) k = none := by
  intro walk
  induction walk with
  | nil =>
    intro acc h
    exact h
  | cons e t ih =>
    intro acc h
    rw [List.foldl_cons]
    refine ih _ ?_
    rw [scanStep]
    by_cases hinc :
        include_file fnmatchFn exclude_patterns (getItemRemoteName directory e.2.1) = true
    · simp only [hinc, if_true]
      have hne : ¬ k = getItemRemoteName directory e.2.1 := by
        intro he
        rw [← he] at hinc
        rw [hk] at hinc
        exact Bool.noConfusion hinc
      rw [dictGet_dictSet, if_neg hne]
      exact h
    · simp only [hinc, if_false]
      exact h

theorem dictGet_getLocalFiles_excluded (fnmatchFn : String → String → Bool)
    (exclude_patterns : List String) (directory : String) (k : String)
    (walk : List (String × String × Nat))
    (hk : include_file fnmatchFn exclude_patterns k = false) :
    dictGet (getLocalFiles fnmatchFn exclude_patterns directory walk) k = none := by
  rw [getLocalFiles]
  exact dictGet_scanFold_excluded fnmatchFn exclude_patterns directory k hk walk [] rfl

/-! ### The action plan -/

theorem mem_snapKeys_filter {l : Snapshot} {p : String × Item → Bool} {k : String} :
    k ∈ snapKeys (l.filter p) ↔ ∃ i, (k, i) ∈ l ∧ p (k, i) = true := by
  rw [mem_snapKeys]
  constructor
  · rintro ⟨v, hv⟩
    rw [List.mem_filter] at hv
    exact ⟨v, hv.1, hv.2⟩
  · rintro ⟨i, h1, h2⟩
    exact ⟨i, List.mem_filter.mpr ⟨h1, h2⟩⟩

theorem mem_snapKeys_removedMap {R : Snapshot} {pr : String × Item → Bool} {k : String} :
    k ∈ snapKeys ((R.filter pr).map (fun p => (p.2.remote_name, p.2))) ↔
      ∃ q ∈ R, pr q = true ∧ q.2.remote_name = k := by
  rw [mem_snapKeys]
  constructor
  · rintro ⟨v, hv⟩
    rcases List.mem_map.mp hv with ⟨q, hq, he⟩
    rw [List.mem_filter] at hq
    exact ⟨q, hq.1, hq.2, congrArg Prod.fst he⟩
  · rintro ⟨q, hq, hpr, hk⟩
    refine ⟨q.2, List.mem_map.mpr ⟨q, List.mem_filter.mpr ⟨hq, hpr⟩, ?_⟩⟩
    rw [hk]

theorem remoteName_nodup_of_wf {R : Snapshot} (hR : WFSnap R) :
    (R.map (fun p => p.2.remote_name)).Nodup := by
  rw [map_remoteName_eq_snapKeys hR.2]
  exact hR.1

theorem to_upload_mem {L R : Snapshot} {i : Item}
    (hL : WFSnap L) (hR : WFSnap R)
    (h : i ∈ (syncPlan L R).to_upload) : (i.remote_name, i) ∈ L := by
  rw [syncPlan, getDifferences_eq L R hL.1 (remoteName_nodup_of_wf hR)] at h
  simp only [calculateActions, List.mem_append] at h
  rcases h with h | h
  all_goals rcases List.mem_map.mp h with ⟨q, hq, rfl⟩
  all_goals have hqL := List.mem_of_mem_filter hq
  all_goals have hwf := hL.2 q hqL
  all_goals rw [← hwf, Prod.mk.eta]
  all_goals exact hqL

theorem to_remove_mem {L R : Snapshot} {j : Item}
    (hL : WFSnap L) (hR : WFSnap R)
    (h : j ∈ (syncPlan L R).to_remove) :
    ∃ q ∈ R, removedPred L q = true ∧ q.2 = j := by
  rw [syncPlan, getDifferences_eq L R hL.1 (remoteName_nodup_of_wf hR)] at h
  simp only [calculateActions, List.map_map] at h
  rcases List.mem_map.mp h with ⟨q, hq, he⟩
  rw [List.mem_filter] at hq
  exact ⟨q, hq.1, hq.2, he⟩

theorem to_upload_mem_pred {L R : Snapshot} {j : Item}
    (hL : WFSnap L) (hR : WFSnap R)
    (h : j ∈ (syncPlan L R).to_upload) :
    (j.remote_name, j) ∈ L ∧
      (addedPred R (j.remote_name, j) = true ∨
        modifiedPred R (j.remote_name, j) = true) := by
  rw [syncPlan, getDifferences_eq L R hL.1 (remoteName_nodup_of_wf hR)] at h
  simp only [calculateActions, List.mem_append] at h
  rcases h with h | h
  · rcases List.mem_map.mp h with ⟨q, hq, rfl⟩
    rw [List.mem_filter] at hq
    have hwf := hL.2 q hq.1
    refine ⟨?_, Or.inl ?_⟩
    · rw [← hwf, Prod.mk.eta]
      exact hq.1
    · rw [← hwf, Prod.mk.eta]
      exact hq.2
  · rcases List.mem_map.mp h with ⟨q, hq, rfl⟩
    rw [List.mem_filter] at hq
    have hwf := hL.2 q hq.1
    refine ⟨?_, Or.inr ?_⟩
    · rw [← hwf, Prod.mk.eta]
      exact hq.1
    · rw [← hwf, Prod.mk.eta]
      exact hq.2

theorem to_upload_of_pred {L R : Snapshot} {k : String} {i : Item}
    (hL : WFSnap L) (hR : WFSnap R) (hmem : (k, i) ∈ L)
    (hpred : addedPred R (k, i) = true ∨ modifiedPred R (k, i) = true) :
    i ∈ (syncPlan L R).to_upload := by
  rw [syncPlan, getDifferences_eq L R hL.1 (remoteName_nodup_of_wf hR)]
  simp only [calculateActions, List.mem_append]
  rcases hpred with hp | hp
  · exact Or.inl (List.mem_map.mpr ⟨(k, i), List.mem_filter.mpr ⟨hmem, hp⟩, rfl⟩)
  · exact Or.inr (List.mem_map.mpr ⟨(k, i), List.mem_filter.mpr ⟨hmem, hp⟩, rfl⟩)

theorem to_upload_map_rn (L R : Snapshot) (hL : WFSnap L) (hR : WFSnap R) :
    (syncPlan L R).to_upload.map Item.remote_name =
      snapKeys (L.filter (addedPred R)) ++ snapKeys (L.filter (modifiedPred R)) := by
  rw [syncPlan, getDifferences_eq L R hL.1 (remoteName_nodup_of_wf hR)]
  simp only [calculateActions, List.map_append, List.map_map, snapKeys]
  have hco : ∀ (p : String × Item → Bool),
      List.map (Item.remote_name ∘ Prod.snd) (List.filter p L) =
        List.map Prod.fst (List.filter p L) := by
    intro p
    refine List.map_congr_left ?_
    intro q hq
    exact (hL.2 q (List.mem_of_mem_filter hq)).symm
  rw [hco, hco]

theorem to_upload_rn_nodup (L R : Snapshot) (hL : WFSnap L) (hR : WFSnap R) :
    ((syncPlan L R).to_upload.map Item.remote_name).Nodup := by
  rw [to_upload_map_rn L R hL hR]
  refine List.Nodup.append (nodup_snapKeys_filter L _ hL.1)
    (nodup_snapKeys_filter L _ hL.1) ?_
  intro k hk1 hk2
  rcases mem_snapKeys_filter.mp hk1 with ⟨i1, h1, hp1⟩
  rcases mem_snapKeys_filter.mp hk2 with ⟨i2, h2, hp2⟩
  rcases hRk : dictGet R k with _ | ri
  · simp [modifiedPred, hRk] at hp2
  · simp [addedPred, hRk] at hp1

/-! ### The restore trace -/

theorem restore_fold_eq (directory : String) (objExists : String → Bool) :
    ∀ (names : List String) (init : List DriverOp),
      names.foldl
        (fun acc name => acc ++ downloadRemoteFileOps directory name (objExists name))
        init =
        init ++
          (names.map (fun name => downloadRemoteFileOps directory name (objExists name))).flatten := by
  intro names
  induction names with
  | nil =>
    intro init
    simp
  | cons n t ih =>
    intro init
    rw [List.foldl_cons, ih, List.map_cons]
    simp [List.append_assoc]

theorem downloadRemoteFileOps_no_mutation (directory name : String) (objExists : Bool)
    (op : DriverOp) (h : op ∈ downloadRemoteFileOps directory name objExists) :
    isRemoteMutation op = false := by
  rw [downloadRemoteFileOps] at h
  rcases hdl : downloadLocalPath directory name with _ | fp
  · rw [hdl] at h
    simp at h
  · rw [hdl] at h
    rcases List.mem_cons.mp h with h1 | h1
    · rw [h1]
      rfl
    · by_cases he : objExists = true
      · simp only [he, if_true] at h1
        rw [List.mem_singleton] at h1
        rw [h1]
        rfl
      · simp only [he, if_false] at h1
        simp at h1

theorem getRemoteFilesOps_no_mutation (fetch : ManifestFetch)
    (op : DriverOp) (h : op ∈ getRemoteFilesOps fetch) : isRemoteMutation op = false := by
  cases fetch with
  | objectDoesNotExist =>
    simp [getRemoteFilesOps] at h
    rw [h]
    rfl
  | found data =>
    simp [getRemoteFilesOps] at h
    rcases h with h | h
    all_goals rw [h]
    all_goals rfl

/-! ### Claim theorems -/

/-- C3: fetching the remote manifest returns the empty snapshot when the
manifest object does not exist in the container, and when the object
exists but its content fails to parse (the external `json.loads` raises)
the fetch raises the fatal "corrupted manifest" error — it never
silently returns a snapshot in that case. -/
theorem c3_manifest_fetch (parseJson : String → Option Snapshot) :
    getRemoteFiles parseJson ManifestFetch.objectDoesNotExist = Except.ok [] ∧
    ∀ data, parseJson data = none →
      getRemoteFiles parseJson (ManifestFetch.found data) =
        Except.error "Corrupted manifest, failed to parse it" := by
  refine ⟨rfl, ?_⟩
  intro data h
  simp [getRemoteFiles, h]

theorem c3_manifest_fetch_witness :
    getRemoteFiles (fun _ => none) ManifestFetch.objectDoesNotExist = Except.ok [] ∧
    getRemoteFiles (fun _ => none) (ManifestFetch.found "garbage") =
      Except.error "Corrupted manifest, failed to parse it" :=
  ⟨(c3_manifest_fetch (fun _ => none)).1,
   (c3_manifest_fetch (fun _ => none)).2 "garbage" rfl⟩

/-- C4: for every item of the action plan, a failing upload or removal
is caught and excluded from the success accumulators `_uploaded` /
`_removed` — each accumulator is exactly the plan list filtered by that
item's own outcome, so no failure influences sibling items — and the
run is total: it always proceeds to recompute the manifest from the
accumulated successes after the pool drains. -/
theorem c4_per_item_isolation (remote_files : Snapshot) (actions : Actions)
    (removeOutcome : Item → DeleteOutcome)
    (uploadOutcome : Item → Except String Unit) :
    runUploads actions.to_upload uploadOutcome =
      actions.to_upload.filter (fun i => uploadOk (uploadOutcome i)) ∧
    runRemovals actions.to_remove removeOutcome =
      actions.to_remove.filter (fun i => deleteOk (removeOutcome i)) ∧
    (∀ i, uploadOk (uploadOutcome i) = false →
      i ∉ runUploads actions.to_upload uploadOutcome) ∧
    (∀ i, deleteOk (removeOutcome i) = false →
      i ∉ runRemovals actions.to_remove removeOutcome) ∧
    runSyncManifest remote_files actions removeOutcome uploadOutcome =
      generateManifest remote_files
        (actions.to_upload.filter (fun i => uploadOk (uploadOutcome i)))
        (actions.to_remove.filter (fun i => deleteOk (removeOutcome i))) := by
  refine ⟨runUploads_eq_filter _ _, runRemovals_eq_filter _ _, ?_, ?_, ?_⟩
  · intro i hf hmem
    rw [runUploads_eq_filter] at hmem
    rw [(List.mem_filter.mp hmem).2] at hf
    exact Bool.noConfusion hf
  · intro i hf hmem
    rw [runRemovals_eq_filter] at hmem
    rw [(List.mem_filter.mp hmem).2] at hf
    exact Bool.noConfusion hf
  · rw [runSyncManifest, runUploads_eq_filter, runRemovals_eq_filter]

theorem c4_per_item_isolation_witness :
    uploadOk (failB (itemB 2)) = false ∧
    itemB 2 ∉ runUploads [itemA 1, itemB 2] failB ∧
    runSyncManifest [] { to_upload := [itemA 1, itemB 2], to_remove := [] }
        (fun _ => DeleteOutcome.success) failB =
      generateManifest [] [itemA 1] [] := by
  have h := c4_per_item_isolation []
    { to_upload := [itemA 1, itemB 2], to_remove := [] }
    (fun _ => DeleteOutcome.success) failB
  refine ⟨by decide, h.2.2.1 (itemB 2) (by decide), ?_⟩
  rw [h.2.2.2.2]
  decide

/-- C6 counterexample: the claim says a delete of a no-longer-existing
remote object still counts as successfully removed, so the entry is
dropped from the persisted manifest.  In the code,
`ObjectDoesNotExistError` is an `Exception`, caught by the blanket
handler in `_remove_object`, which returns without appending to
`_removed`; the entry therefore survives in the persisted manifest. -/
theorem c6_remove_idempotent_counterexample :
    removeObject DeleteOutcome.objectDoesNotExist (itemA 100) [] = [] ∧
    dictGet
      (runSyncManifest [("/a.txt", itemA 100)]
        { to_upload := [], to_remove := [itemA 100] }
        (fun _ => DeleteOutcome.objectDoesNotExist) (fun _ => Except.ok ()))
      "/a.txt" = some (itemA 100) := by
  decide

/-- C6 (amended): removing a remote object that no longer exists is
treated like any other removal failure: the `ObjectDoesNotExistError`
raised by the driver is caught, the item is NOT counted among the
successfully removed entries, and the entry is therefore retained in
the persisted manifest rather than dropped. -/
theorem c6_remove_not_idempotent (item : Item) (removed : List Item)
    (remote_files : Snapshot) (uploadOutcome : Item → Except String Unit) :
    removeObject DeleteOutcome.objectDoesNotExist item removed = removed ∧
    runSyncManifest remote_files { to_upload := [], to_remove := [item] }
        (fun _ => DeleteOutcome.objectDoesNotExist) uploadOutcome = remote_files :=
  ⟨rfl, rfl⟩

/-- C7 counterexample: `_get_item_remote_name` is
`file_path.replace(self._directory, '')`, and Python `str.replace`
deletes every occurrence of the directory string, not only the leading
one: with directory `/a` and path `/a/b/a/c` the result is `/b/c`,
while stripping exactly the leading root prefix would give `/b/a/c`. -/
theorem c7_remote_name_counterexample :
    getItemRemoteName "/a" "/a/b/a/c" = "/b/c" ∧ "/b/c" ≠ "/b/a/c" := by
  decide

/-- C7 (amended): the relative name is the file path with every
occurrence of the directory string deleted; when the directory string
occurs nowhere in the remainder of the path, this coincides with
stripping exactly the leading root prefix and leaving the rest
unchanged. -/
theorem c7_remote_name_strips_leading (directory : String) (rest : List Char)
    (hdir : directory.data ≠ [])
    (hocc : occursIn directory.data rest = false) :
    getItemRemoteName directory (String.mk (directory.data ++ rest)) = String.mk rest := by
  rw [getItemRemoteName]
  have hdata : (String.mk (directory.data ++ rest)).data = directory.data ++ rest := rfl
  rw [hdata, removeOcc_strips_leading directory.data rest hdir hocc]

theorem c7_remote_name_strips_leading_witness :
    getItemRemoteName "/d" "/d/a.txt" = "/a.txt" := by
  have h := c7_remote_name_strips_leading "/d" "/a.txt".data (by decide) (by decide)
  have he : String.mk ("/d".data ++ "/a.txt".data) = "/d/a.txt" := by decide
  have he2 : String.mk "/a.txt".data = "/a.txt" := rfl
  rw [he, he2] at h
  exact h

/-- C9: the restore path only reads remote state — every driver call in
its trace is a `get_object` or a download, never an upload, manifest
write or delete — and it schedules exactly one download task per key of
the fetched remote manifest (iterating the manifest dict yields its
keys); on a failed fetch no task is spawned. -/
theorem c9_restore_only_downloads (parseJson : String → Option Snapshot)
    (fetch : ManifestFetch) (directory : String) (objExists : String → Bool) :
    (∀ op ∈ restoreOps parseJson fetch directory objExists,
      isRemoteMutation op = false) ∧
    (∀ snap, getRemoteFiles parseJson fetch = Except.ok snap →
      restoreTasks parseJson fetch = snapKeys snap) := by
  constructor
  · intro op hop
    rw [restoreOps] at hop
    rcases List.mem_append.mp hop with h | h
    · exact getRemoteFilesOps_no_mutation fetch op h
    · rw [restore_fold_eq directory objExists (restoreTasks parseJson fetch) []] at h
      simp only [List.nil_append] at h
      rcases List.mem_flatten.mp h with ⟨s, hs, hop2⟩
      rcases List.mem_map.mp hs with ⟨name, _, rfl⟩
      exact downloadRemoteFileOps_no_mutation directory name _ op hop2
  · intro snap h
    rw [restoreTasks, h]

theorem c9_restore_only_downloads_witness :
    isRemoteMutation (DriverOp.getObject MANIFEST_FILE) = false ∧
    restoreTasks parseW (ManifestFetch.found "m") = ["/a.txt"] := by
  have h := c9_restore_only_downloads parseW (ManifestFetch.found "m") "/sync" (fun _ => true)
  refine ⟨h.1 (DriverOp.getObject MANIFEST_FILE) (by decide), ?_⟩
  rw [h.2 [("/a.txt", itemA 100)] rfl]
  rfl

/-- C10 counterexample: the claim concludes that every name beginning
with `/` lands inside the sync directory.  A name beginning with two
slashes is still absolute after the single-character strip, and
`os.path.join` then discards the sync directory entirely: restoring
name `//etc` into `/sync` writes to `/etc`, outside the sync
directory. -/
theorem c10_download_path_counterexample :
    downloadLocalPath "/sync" "//etc" = some "/etc" ∧
    leadMatch "/sync/".data "/etc".data = false := by
  decide

/-- C10 (amended): the restore download writes to
`os.path.join(directory, name)` after stripping at most one leading `/`
from the name; a name beginning with exactly one `/` therefore lands
inside the sync directory, while a name still absolute after the strip
makes `os.path.join` discard the directory.  The empty name is a
genuine precondition: `name[0]` faults before any driver call. -/
theorem c10_download_path (directory name : String)
    (hdir : ¬ directory = "") (hslash : lastIsSlash directory = false) :
    downloadLocalPath directory "" = none ∧
    (∀ c rest, name.data = c :: rest →
      downloadLocalPath directory name =
        some (pathJoin directory (if c = '/' then String.mk rest else name))) ∧
    (∀ rest, name.data = '/' :: rest → headIsSlash (String.mk rest) = false →
      downloadLocalPath directory name =
        some (directory ++ "/" ++ String.mk rest)) := by
  refine ⟨rfl, ?_, ?_⟩
  · intro c rest h
    simp [downloadLocalPath, h]
  · intro rest h hrest
    simp [downloadLocalPath, h, pathJoin, hrest, hdir, hslash]

theorem c10_download_path_witness :
    downloadLocalPath "/sync" "" = none ∧
    downloadLocalPath "/sync" "/a.txt" = some "/sync/a.txt" := by
  have h := c10_download_path "/sync" "/a.txt" (by decide) (by decide)
  refine ⟨h.1, ?_⟩
  have h3 := h.2.2 "a.txt".data rfl (by decide)
  rw [h3]
  decide

/-- C5 counterexample: the claim says an excluded local file is never
classified for removal even when present in the remote manifest.  In
the code the excluded file is simply absent from the local snapshot, so
a remote entry under that name is indistinguishable from a locally
deleted file: the differ classifies it `removed` and it is planned for
remote deletion. -/
theorem c5_excluded_counterexample :
    include_file fnmatchLit ["/secret.txt"] "/secret.txt" = false ∧
    getLocalFiles fnmatchLit ["/secret.txt"] "/d" [("secret.txt", "/d/secret.txt", 5)] = [] ∧
    (syncPlan
      (getLocalFiles fnmatchLit ["/secret.txt"] "/d" [("secret.txt", "/d/secret.txt", 5)])
      [("/secret.txt", itemSecret)]).to_remove = [itemSecret] := by
  decide

/-- C5 (amended): a local file whose relative name matches an exclude
pattern is absent from the local snapshot and is therefore never
uploaded; but — contrary to the claim — when an entry under that name
is present in the remote manifest from an earlier run, the differ DOES
classify that name as removed, scheduling its remote deletion. -/
theorem c5_excluded_files (fnmatchFn : String → String → Bool)
    (exclude_patterns : List String) (directory : String)
    (walk : List (String × String × Nat)) (R : Snapshot) (k : String)
    (hR : WFSnap R)
    (hk : include_file fnmatchFn exclude_patterns k = false) :
    dictGet (getLocalFiles fnmatchFn exclude_patterns directory walk) k = none ∧
    (∀ i ∈ (syncPlan (getLocalFiles fnmatchFn exclude_patterns directory walk) R).to_upload,
      i.remote_name ≠ k) ∧
    (k ∈ snapKeys R →
      k ∈ snapKeys
        (getDifferences (getLocalFiles fnmatchFn exclude_patterns directory walk) R).removed) := by
  have hL : WFSnap (getLocalFiles fnmatchFn exclude_patterns directory walk) :=
    wf_getLocalFiles _ _ _ _
  have habs : dictGet (getLocalFiles fnmatchFn exclude_patterns directory walk) k = none :=
    dictGet_getLocalFiles_excluded _ _ _ _ _ hk
  refine ⟨habs, ?_, ?_⟩
  · intro i hi he
    have hmem := (to_upload_mem_pred hL hR hi).1
    rw [he] at hmem
    have hsome := dictGet_of_mem hL.1 hmem
    rw [habs] at hsome
    exact Option.noConfusion hsome
  · intro hkR
    rcases mem_snapKeys.mp hkR with ⟨v, hv⟩
    have hrn : k = v.remote_name := hR.2 (k, v) hv
    have hEq := getDifferences_eq (getLocalFiles fnmatchFn exclude_patterns directory walk) R
      hL.1 (remoteName_nodup_of_wf hR)
    rw [hEq]
    refine mem_snapKeys_removedMap.mpr ⟨(k, v), hv, ?_, hrn.symm⟩
    simp [removedPred, ← hrn, habs]

theorem c5_excluded_files_witness :
    dictGet
      (getLocalFiles fnmatchLit ["/secret.txt"] "/d" [("secret.txt", "/d/secret.txt", 5)])
      "/secret.txt" = none ∧
    "/secret.txt" ∈ snapKeys
      (getDifferences
        (getLocalFiles fnmatchLit ["/secret.txt"] "/d" [("secret.txt", "/d/secret.txt", 5)])
        [("/secret.txt", itemSecret)]).removed := by
  have h := c5_excluded_files fnmatchLit ["/secret.txt"] "/d"
    [("secret.txt", "/d/secret.txt", 5)] [("/secret.txt", itemSecret)] "/secret.txt"
    (by decide) (by decide)
  exact ⟨h.1, h.2.2 (by decide)⟩

/-- C2: the manifest persisted at the end of sync equals the previously
fetched remote manifest with every successfully uploaded entry written
under its remote name and every successfully removed entry deleted; a
key neither uploaded nor removed keeps its fetched remote value, so an
entry whose upload failed is not added and the persisted manifest is
not simply the local snapshot. -/
theorem c2_persisted_manifest (r : Snapshot) (u rm : List Item)
    (h_r : (snapKeys r).Nodup)
    (h_u : (u.map Item.remote_name).Nodup)
    (h_disj : ∀ i ∈ u, ∀ j ∈ rm, i.remote_name ≠ j.remote_name) :
    (∀ i ∈ u, dictGet (generateManifest r u rm) i.remote_name = some i) ∧
    (∀ j ∈ rm, dictGet (generateManifest r u rm) j.remote_name = none) ∧
    (∀ k, (∀ i ∈ u, i.remote_name ≠ k) → (∀ j ∈ rm, j.remote_name ≠ k) →
      dictGet (generateManifest r u rm) k = dictGet r k) := by
  refine ⟨?_, ?_, ?_⟩
  · intro i hi
    rw [dictGet_generateManifest r u rm i.remote_name h_r]
    have hany : rm.any (fun j => j.remote_name == i.remote_name) = false := by
      by_contra hc
      rw [Bool.not_eq_false, List.any_eq_true] at hc
      rcases hc with ⟨j, hj, hbeq⟩
      have hje : j.remote_name = i.remote_name := by simpa using hbeq
      exact h_disj i hi j hj hje.symm
    simp [hany, findLastUpload_of_mem h_u hi]
  · intro j hj
    rw [dictGet_generateManifest r u rm j.remote_name h_r]
    have hany : rm.any (fun i => i.remote_name == j.remote_name) = true :=
      List.any_eq_true.mpr ⟨j, hj, by simp⟩
    simp [hany]
  · intro k hu hrm
    rw [dictGet_generateManifest r u rm k h_r]
    have hany : rm.any (fun i => i.remote_name == k) = false := by
      by_contra hc
      rw [Bool.not_eq_false, List.any_eq_true] at hc
      rcases hc with ⟨j, hj, hbeq⟩
      exact hrm j hj (by simpa using hbeq)
    have hfl : findLastUpload u k = none := findLastUpload_eq_none hu
    simp [hany, hfl]

theorem c2_persisted_manifest_witness :
    dictGet (generateManifest [("/a.txt", itemA 100), ("/b.txt", itemB 50)]
      [itemC 7] [itemB 50]) "/c.txt" = some (itemC 7) ∧
    dictGet (generateManifest [("/a.txt", itemA 100), ("/b.txt", itemB 50)]
      [itemC 7] [itemB 50]) "/b.txt" = none ∧
    dictGet (generateManifest [("/a.txt", itemA 100), ("/b.txt", itemB 50)]
      [itemC 7] [itemB 50]) "/a.txt" =
      dictGet [("/a.txt", itemA 100), ("/b.txt", itemB 50)] "/a.txt" := by
  have h := c2_persisted_manifest [("/a.txt", itemA 100), ("/b.txt", itemB 50)]
    [itemC 7] [itemB 50] (by decide) (by decide) (by decide)
  exact ⟨h.1 (itemC 7) (by decide), h.2.1 (itemB 50) (by decide),
    h.2.2 "/a.txt" (by decide) (by decide)⟩

/-- C1: for well-formed snapshots, the differ classifies every local
key absent remotely as added, every key present in both snapshots with
a strictly greater local `last_modified` as modified, and leaves every
other common key untouched; every remote key absent locally is
classified removed; the three key sets are pairwise disjoint and
contained in the union of the local and remote key sets. -/
theorem c1_diff_classification (L R : Snapshot) (hL : WFSnap L) (hR : WFSnap R) :
    (∀ k, k ∈ snapKeys L → k ∉ snapKeys R →
      k ∈ snapKeys (getDifferences L R).added) ∧
    (∀ k i ri, dictGet L k = some i → dictGet R k = some ri →
      ri.last_modified < i.last_modified →
      k ∈ snapKeys (getDifferences L R).modified) ∧
    (∀ k i ri, dictGet L k = some i → dictGet R k = some ri →
      ¬ ri.last_modified < i.last_modified →
      k ∉ snapKeys (getDifferences L R).added ∧
      k ∉ snapKeys (getDifferences L R).modified ∧
      k ∉ snapKeys (getDifferences L R).removed) ∧
    (∀ k, k ∈ snapKeys R → k ∉ snapKeys L →
      k ∈ snapKeys (getDifferences L R).removed) ∧
    (∀ k, ¬ (k ∈ snapKeys (getDifferences L R).added ∧
             k ∈ snapKeys (getDifferences L R).modified) ∧
          ¬ (k ∈ snapKeys (getDifferences L R).added ∧
             k ∈ snapKeys (getDifferences L R).removed) ∧
          ¬ (k ∈ snapKeys (getDifferences L R).modified ∧
             k ∈ snapKeys (getDifferences L R).removed)) ∧
    (∀ k, k ∈ snapKeys (getDifferences L R).added ∨
          k ∈ snapKeys (getDifferences L R).modified ∨
          k ∈ snapKeys (getDifferences L R).removed →
      k ∈ snapKeys L ∨ k ∈ snapKeys R) := by
  have hEq := getDifferences_eq L R hL.1 (remoteName_nodup_of_wf hR)
  rw [hEq]
  refine ⟨?_, ?_, ?_, ?_, ?_, ?_⟩
  · intro k hkL hkR
    rcases mem_snapKeys.mp hkL with ⟨i, hi⟩
    have hnone : dictGet R k = none := dictGet_eq_none.mpr hkR
    exact mem_snapKeys_filter.mpr ⟨i, hi, by simp [addedPred, hnone]⟩
  · intro k i ri h1 h2 hlt
    exact mem_snapKeys_filter.mpr ⟨i, dictGet_mem h1, by simp [modifiedPred, h2, hlt]⟩
  · intro k i ri h1 h2 hnlt
    refine ⟨?_, ?_, ?_⟩
    · intro hmem
      rcases mem_snapKeys_filter.mp hmem with ⟨i', hi', hp⟩
      simp [addedPred, h2] at hp
    · intro hmem
      rcases mem_snapKeys_filter.mp hmem with ⟨i', hi', hp⟩
      have e1 := dictGet_of_mem hL.1 hi'
      rw [h1] at e1
      obtain rfl : i = i' := Option.some.inj e1
      simp [modifiedPred, h2] at hp
      exact hnlt hp
    · intro hmem
      rcases mem_snapKeys_removedMap.mp hmem with ⟨q, hq, hpr, hk⟩
      simp [removedPred, hk, h1] at hpr
  · intro k hkR hkL
    rcases mem_snapKeys.mp hkR with ⟨v, hv⟩
    have hrn : k = v.remote_name := hR.2 (k, v) hv
    have hnone : dictGet L k = none := dictGet_eq_none.mpr hkL
    refine mem_snapKeys_removedMap.mpr ⟨(k, v), hv, ?_, hrn.symm⟩
    simp [removedPred, ← hrn, hnone]
  · intro k
    refine ⟨?_, ?_, ?_⟩
    · rintro ⟨h1, h2⟩
      rcases mem_snapKeys_filter.mp h1 with ⟨i1, hi1, hp1⟩
      rcases mem_snapKeys_filter.mp h2 with ⟨i2, hi2, hp2⟩
      rcases hRk : dictGet R k with _ | ri
      · simp [modifiedPred, hRk] at hp2
      · simp [addedPred, hRk] at hp1
    · rintro ⟨h1, h2⟩
      rcases mem_snapKeys_filter.mp h1 with ⟨i1, hi1, hp1⟩
      rcases mem_snapKeys_removedMap.mp h2 with ⟨q, hq, hpr, hk⟩
      have hq1 : q.1 = k := by rw [hR.2 q hq, hk]
      have hkR : k ∈ snapKeys R := hq1 ▸ List.mem_map_of_mem Prod.fst hq
      have hnone : dictGet R k = none := by
        simpa [addedPred, Option.isNone_iff_eq_none] using hp1
      exact (dictGet_eq_none.mp hnone) hkR
    · rintro ⟨h1, h2⟩
      rcases mem_snapKeys_filter.mp h1 with ⟨i1, hi1, hp1⟩
      rcases mem_snapKeys_removedMap.mp h2 with ⟨q, hq, hpr, hk⟩
      have hnone : dictGet L k = none := by
        simpa [removedPred, hk, Option.isNone_iff_eq_none] using hpr
      exact (dictGet_eq_none.mp hnone) (mem_snapKeys.mpr ⟨i1, hi1⟩)
  · intro k h
    rcases h with h | h | h
    · rcases mem_snapKeys_filter.mp h with ⟨i, hi, _⟩
      exact Or.inl (mem_snapKeys.mpr ⟨i, hi⟩)
    · rcases mem_snapKeys_filter.mp h with ⟨i, hi, _⟩
      exact Or.inl (mem_snapKeys.mpr ⟨i, hi⟩)
    · rcases mem_snapKeys_removedMap.mp h with ⟨q, hq, _, hk⟩
      have hq1 : q.1 = k := by rw [hR.2 q hq, hk]
      exact Or.inr (hq1 ▸ List.mem_map_of_mem Prod.fst hq)

theorem c1_diff_classification_witness :
    "/a.txt" ∈ snapKeys (getDifferences [("/a.txt", itemA 100)] [("/b.txt", itemB 50)]).added ∧
    "/b.txt" ∈ snapKeys (getDifferences [("/a.txt", itemA 100)] [("/b.txt", itemB 50)]).removed := by
  have h := c1_diff_classification [("/a.txt", itemA 100)] [("/b.txt", itemB 50)]
    (by decide) (by decide)
  exact ⟨h.1 "/a.txt" (by decide) (by decide), h.2.2.2.1 "/b.txt" (by decide) (by decide)⟩

/-! ### Idempotence of sync -/

theorem filter_eq_nil_of_false {α : Type} (p : α → Bool) :
    ∀ (l : List α), (∀ a ∈ l, p a = false) → l.filter p = [] := by
  intro l
  induction l with
  | nil =>
    intro _
    rfl
  | cons a t ih =>
    intro h
    rw [List.filter_cons]
    simp only [h a (List.mem_cons_self _ _), Bool.false_eq_true, if_false]
    exact ih (fun b hb => h b (List.mem_cons_of_mem _ hb))

theorem to_remove_of_pred {L R : Snapshot} {q : String × Item}
    (hL : WFSnap L) (hR : WFSnap R) (hq : q ∈ R) (hpr : removedPred L q = true) :
    q.2 ∈ (syncPlan L R).to_remove := by
  rw [syncPlan, getDifferences_eq L R hL.1 (remoteName_nodup_of_wf hR)]
  simp only [calculateActions, List.map_map]
  exact List.mem_map.mpr ⟨q, List.mem_filter.mpr ⟨hq, hpr⟩, rfl⟩

theorem syncManifestAllSuccess_eq (L R : Snapshot) :
    syncManifestAllSuccess L R =
      generateManifest R (syncPlan L R).to_upload (syncPlan L R).to_remove := by
  rw [syncManifestAllSuccess, runSyncManifest, runUploads_eq_filter, runRemovals_eq_filter]
  simp [uploadOk, deleteOk]

theorem wf_syncManifest (L R : Snapshot) (hR : WFSnap R) :
    WFSnap (syncManifestAllSuccess L R) := by
  rw [syncManifestAllSuccess_eq]
  exact wf_generateManifest R _ _ hR

theorem to_remove_any_false (L R : Snapshot) (hL : WFSnap L) (hR : WFSnap R)
    (k : String) (hkL : k ∈ snapKeys L) :
    (syncPlan L R).to_remove.any (fun j => j.remote_name == k) = false := by
  by_contra hc
  rw [Bool.not_eq_false, List.any_eq_true] at hc
  rcases hc with ⟨j, hj, hbeq⟩
  have hjk : j.remote_name = k := by simpa using hbeq
  rcases to_remove_mem hL hR hj with ⟨q, hq, hpr, hq2⟩
  have hnone : dictGet L k = none := by
    simpa [removedPred, hq2, hjk, Option.isNone_iff_eq_none] using hpr
  exact (dictGet_eq_none.mp hnone) hkL

theorem dictGet_syncManifest (L R : Snapshot) (hL : WFSnap L) (hR : WFSnap R) :
    ∀ p ∈ L, dictGet (syncManifestAllSuccess L R) p.1 =
      (match dictGet R p.1 with
       | none => some p.2
       | some ri =>
         if ri.last_modified < p.2.last_modified then some p.2 else some ri) := by
  intro p hp
  have hkL : p.1 ∈ snapKeys L := List.mem_map_of_mem Prod.fst hp
  have hpL : dictGet L p.1 = some p.2 :=
    dictGet_of_mem hL.1 (by rw [Prod.mk.eta]; exact hp)
  have hwfp : p.1 = p.2.remote_name := hL.2 p hp
  rw [syncManifestAllSuccess_eq,
      dictGet_generateManifest R _ _ p.1 hR.1,
      to_remove_any_false L R hL hR p.1 hkL]
  rw [if_neg Bool.false_ne_true]
  rcases hRp : dictGet R p.1 with _ | ri
  · have hpa : addedPred R (p.1, p.2) = true := by simp [addedPred, hRp]
    have hin : p.2 ∈ (syncPlan L R).to_upload :=
      to_upload_of_pred hL hR (by rw [Prod.mk.eta]; exact hp) (Or.inl hpa)
    have hfl := findLastUpload_of_mem (to_upload_rn_nodup L R hL hR) hin
    rw [← hwfp] at hfl
    rw [hfl]
  · by_cases hlt : ri.last_modified < p.2.last_modified
    · have hpm : modifiedPred R (p.1, p.2) = true := by simp [modifiedPred, hRp, hlt]
      have hin : p.2 ∈ (syncPlan L R).to_upload :=
        to_upload_of_pred hL hR (by rw [Prod.mk.eta]; exact hp) (Or.inr hpm)
      have hfl := findLastUpload_of_mem (to_upload_rn_nodup L R hL hR) hin
      rw [← hwfp] at hfl
      rw [hfl]
      simp [hlt]
    · have hfl : findLastUpload (syncPlan L R).to_upload p.1 = none := by
        refine findLastUpload_eq_none ?_
        intro j hj he
        rcases to_upload_mem_pred hL hR hj with ⟨hmem, hpred⟩
        rw [he] at hmem
        have hsome := dictGet_of_mem hL.1 hmem
        rw [hpL] at hsome
        obtain rfl : j = p.2 := Option.some.inj hsome.symm
        rw [he] at hpred
        rcases hpred with hpa | hpm
        · simp [addedPred, hRp] at hpa
        · simp [modifiedPred, hRp, hlt] at hpm
      rw [hfl]
      simp [hlt]

theorem syncManifest_keys_sub (L R : Snapshot) (hL : WFSnap L) (hR : WFSnap R) :
    ∀ k, k ∈ snapKeys (syncManifestAllSuccess L R) → k ∈ snapKeys L := by
  intro k hk
  rcases ho : dictGet (syncManifestAllSuccess L R) k with _ | v
  · exact absurd hk (dictGet_eq_none.mp ho)
  · rw [syncManifestAllSuccess_eq, dictGet_generateManifest R _ _ k hR.1] at ho
    by_cases hany : (syncPlan L R).to_remove.any (fun j => j.remote_name == k) = true
    · rw [if_pos hany] at ho
      exact Option.noConfusion ho
    · rw [if_neg hany] at ho
      rcases hfl : findLastUpload (syncPlan L R).to_upload k with _ | i
      · rw [hfl] at ho
        have hv : (k, v) ∈ R := dictGet_mem ho
        have hrn : k = v.remote_name := hR.2 (k, v) hv
        by_contra hkL
        have hnone : dictGet L k = none := dictGet_eq_none.mpr hkL
        have hpr : removedPred L (k, v) = true := by
          simp [removedPred, ← hrn, hnone]
        have hjrm : v ∈ (syncPlan L R).to_remove :=
          to_remove_of_pred hL hR hv hpr
        exact hany (List.any_eq_true.mpr ⟨v, hjrm, by simp [← hrn]⟩)
      · rw [hfl] at ho
        rcases findLastUpload_mem hfl with ⟨hin, hirn⟩
        have hmem := (to_upload_mem_pred hL hR hin).1
        rw [hirn] at hmem
        exact List.mem_map_of_mem Prod.fst hmem

/-- C8: sync is idempotent at the plan level: when every planned upload
and removal of a run succeeds, a second diff-and-plan over the
unchanged local snapshot and the manifest persisted by that run yields
an empty upload list and an empty removal list. -/
theorem c8_sync_idempotent (L R : Snapshot) (hL : WFSnap L) (hR : WFSnap R) :
    syncPlan L (syncManifestAllSuccess L R) = { to_upload := [], to_remove := [] } := by
  have hMwf : WFSnap (syncManifestAllSuccess L R) := wf_syncManifest L R hR
  have hEq2 := getDifferences_eq L (syncManifestAllSuccess L R) hL.1
    (remoteName_nodup_of_wf hMwf)
  rw [syncPlan, hEq2, calculateActions]
  have h1 : L.filter (addedPred (syncManifestAllSuccess L R)) = [] := by
    refine filter_eq_nil_of_false _ L ?_
    intro p hp
    have hlook := dictGet_syncManifest L R hL hR p hp
    rcases hRp : dictGet R p.1 with _ | ri
    · simp [addedPred, hlook, hRp]
    · by_cases hlt : ri.last_modified < p.2.last_modified
      · simp [addedPred, hlook, hRp, hlt]
      · simp [addedPred, hlook, hRp, hlt]
  have h2 : L.filter (modifiedPred (syncManifestAllSuccess L R)) = [] := by
    refine filter_eq_nil_of_false _ L ?_
    intro p hp
    have hlook := dictGet_syncManifest L R hL hR p hp
    rcases hRp : dictGet R p.1 with _ | ri
    · simp [modifiedPred, hlook, hRp]
    · by_cases hlt : ri.last_modified < p.2.last_modified
      · simp [modifiedPred, hlook, hRp, hlt]
      · simp [modifiedPred, hlook, hRp, hlt]
  have h3 : (syncManifestAllSuccess L R).filter (removedPred L) = [] := by
    refine filter_eq_nil_of_false _ _ ?_
    intro q hq
    have hq1 : q.1 = q.2.remote_name := hMwf.2 q hq
    have hkM : q.1 ∈ snapKeys (syncManifestAllSuccess L R) :=
      List.mem_map_of_mem Prod.fst hq
    have hkL : q.1 ∈ snapKeys L := syncManifest_keys_sub L R hL hR q.1 hkM
    rcases mem_snapKeys.mp hkL with ⟨v, hv⟩
    have hsome : dictGet L q.1 = some v := dictGet_of_mem hL.1 hv
    simp [removedPred, ← hq1, hsome]
  rw [h1, h2, h3]
  rfl

theorem c8_sync_idempotent_witness :
    syncPlan [("/a.txt", itemA 200)]
      (syncManifestAllSuccess [("/a.txt", itemA 200)]
        [("/a.txt", itemA 100), ("/b.txt", itemB 50)]) =
      { to_upload := [], to_remove := [] } :=
  c8_sync_idempotent [("/a.txt", itemA 200)]
    [("/a.txt", itemA 100), ("/b.txt", itemB 50)] (by decide) (by decide)
